import Mathlib

/-!
Shallow embedding of `shape` (src/shape/__init__.py): a recursive
shape-inference pipeline over nested values — path extraction, key-pattern
rewriting, optional numeric description, index collapsing, and a
null-coalescing merge that rebuilds a tree.
-/

/-- A path segment: either a sequence index marker (the source's local
`Index` class, identified by its integer `i`, with equality, ordering and
hashing all delegating to `i`) or a string (a mapping key, or — in terminal
position — a type label). -/
inductive Seg where
  | idx : Nat → Seg
  | str : String → Seg
deriving DecidableEq

/-- A path, as produced by `_get_paths`: a tuple of segments ending in a
type label. -/
abbrev SPath := List Seg

/-- The input domain of `shape`: mappings, sequences, scalars and null,
nested arbitrarily.  All of Python's sequence types recognised by the source
(`list`, `tuple`, generators, `map`, `filter`) are embedded as `vlist`;
mapping keys are strings as in the spec's data model, and a `vdict` entry
list with a duplicated key corresponds to no Python dict (dict keys are
unique).  Python floats are embedded as rationals: the only operations the
source performs on a float are taking its type name and comparing it with
`0`. -/
inductive Value where
  | vnull  : Value
  | vbool  : Bool → Value
  | vint   : Int → Value
  | vfloat : Rat → Value
  | vstr   : String → Value
  | vlist  : List Value → Value
  | vdict  : List (String × Value) → Value

/-- `'zero' if data == 0 else 'nonzero'` from `_get_paths`. -/
def num_desc (isZero : Bool) : String := if isZero then "zero" else "nonzero"

mutual
/-- Embedding of `_get_paths`.  The `prefix` parameter of the source is the
empty tuple at every call site (the recursive call passes it through
unchanged and it is prepended to already-prefixed paths), so it is omitted.
Scalars are labelled with their dynamic type name; `typ in (int, float)` is
an exact-type test in Python, so a `bool` (despite being a subclass of
`int`) falls through to the generic branch and is labelled `"bool"` even
when `db` (describe_numbers) is set. -/
def get_paths (db : Bool) : Value → List SPath
  | .vlist l   => get_paths_seq db 0 l
  | .vdict kvs => get_paths_map db kvs
  | .vnull     => [[Seg.str "NoneType"]]
  | .vbool _   => [[Seg.str "bool"]]
  | .vstr _    => [[Seg.str "str"]]
  | .vint n    => if db then [[Seg.str ("int:" ++ num_desc (n == 0))]] else [[Seg.str "int"]]
  | .vfloat q  => if db then [[Seg.str ("float:" ++ num_desc (q == 0))]] else [[Seg.str "float"]]

/-- The sequence branch of `_get_paths`: each element is paired with an
index marker holding its position (`enumerate`), the element's paths are
produced recursively and the marker is prepended. -/
def get_paths_seq (db : Bool) (i : Nat) : List Value → List SPath
  | [] => []
  | v :: rest => (get_paths db v).map (fun p => Seg.idx i :: p) ++ get_paths_seq db (i + 1) rest

/-- The mapping branch of `_get_paths`: entries are traversed in insertion
order and the key is prepended to each recursively produced path. -/
def get_paths_map (db : Bool) : List (String × Value) → List SPath
  | [] => []
  | (k, v) :: rest => (get_paths db v).map (fun p => Seg.str k :: p) ++ get_paths_map db rest
end

/-- Left-to-right, non-overlapping global replacement of the literal
character sequence `p₀ :: pat` by `repl`, scanning the subject list left to
right.  The fuel argument — initialised to the subject's length, which the
scan consumes at least one character of per step — never runs out; it only
makes the recursion structural. -/
def replace_chars (p₀ : Char) (pat repl : List Char) : Nat → List Char → List Char
  | _, [] => []
  | 0, l => l
  | fuel + 1, c :: cs =>
    if (p₀ :: pat).isPrefixOf (c :: cs) then
      repl ++ replace_chars p₀ pat repl fuel (cs.drop pat.length)
    else c :: replace_chars p₀ pat repl fuel cs

/-- One `re.sub(pattern, replace_with, data)` call, embedded as literal
global substring replacement: faithful for non-empty patterns free of regex
metacharacters, which is all the verification below relies on.  Divergent
cases, on which no theorem below depends: metacharacter patterns, and the
empty pattern (`re.sub` inserts the replacement at every position, this
embedding returns the subject unchanged). -/
def lit_replace (s pattern replacement : String) : String :=
  match pattern.data with
  | [] => s
  | p₀ :: ps => String.mk (replace_chars p₀ ps replacement.data s.data.length s.data)

/-- The fold of `re.sub` calls inside `apply_patterns`: each pattern is
applied in order to the previous pattern's output. -/
def subst_all (patterns : List (String × String)) (s : String) : String :=
  patterns.foldl (fun acc pr => lit_replace acc pr.1 pr.2) s

/-- Embedding of the module-level `apply_patterns`: applied to one path
segment; only string segments are rewritten, and only when the pattern
mapping is non-empty (Python truthiness of `patterns`). -/
def apply_patterns (patterns : List (String × String)) : Seg → Seg
  | .str s => if patterns.isEmpty then .str s else .str (subst_all patterns s)
  | .idx i => .idx i

/-- Embedding of `_apply_patterns`: `apply_patterns` is mapped over every
segment of every path — including the terminal type-label segment. -/
def apply_patterns_stage (patterns : List (String × String)) (paths : List SPath) : List SPath :=
  paths.map (fun p => p.map (apply_patterns patterns))

/-- Embedding of `_describe_numbers`.  The source rewrites `path[-1]` only
when it is an `int` or `float` object; `_get_paths` always terminates a path
with a string label (and `_apply_patterns` keeps it a string), so the branch
never fires and the stage is the identity. -/
def describe_numbers_stage (db : Bool) (paths : List SPath) : List SPath :=
  paths

/-- Segment comparison used by `sorted`: index markers compare by their
integer (`Index.__lt__`), strings lexicographically.  Python raises on a
comparison between an index marker and a string.  When no key patterns are
supplied, such a mixed comparison is unreachable: two paths extracted from
one value first differ at two segments of the same kind (the segments of
one container), and Python's tuple order never compares beyond the first
difference.  The embedding fixes `idx < str` to obtain a total order.
With non-empty key patterns, rewriting can merge distinct keys of
heterogeneous siblings and make the mixed case reachable — there the source
raises inside `sorted` while this order yields `idx < str` — so no totality
statement below combines sorting with key patterns. -/
def seg_lt : Seg → Seg → Bool
  | .idx i, .idx j => decide (i < j)
  | .idx _, .str _ => true
  | .str _, .idx _ => false
  | .str s, .str t => decide (s < t)

/-- Lexicographic tuple comparison, as used by Python's `sorted` on paths:
a strict prefix sorts first, otherwise the first differing segment decides. -/
def path_le : List Seg → List Seg → Bool
  | [], _ => true
  | _ :: _, [] => false
  | a :: as, b :: bs => seg_lt a b || (a == b && path_le as bs)

/-- The `if sort: paths = sorted(paths)` step of `shape`. -/
def sort_stage (sort : Bool) (paths : List SPath) : List SPath :=
  if sort then paths.mergeSort path_le else paths

/-- The index-canonicalisation half of `_collapse_paths`: every index
marker is replaced by the canonical `Index(0)`. -/
def collapse_seg : Seg → Seg
  | .idx _ => .idx 0
  | .str s => .str s

/-- The `list(dict.fromkeys(paths))` half of `_collapse_paths`:
deduplication preserving first-occurrence order. -/
def dedup_aux (seen : List SPath) : List SPath → List SPath
  | [] => []
  | p :: rest => if p ∈ seen then dedup_aux seen rest else p :: dedup_aux (p :: seen) rest

/-- Embedding of `_collapse_paths`. -/
def collapse_paths (paths : List SPath) : List SPath :=
  dedup_aux [] (paths.map (fun p => p.map collapse_seg))

/-- The work-in-progress merge accumulator of `_merge_paths`: a nested
Python dict whose keys are segments and whose leaves are the stored terminal
segments (always type-label strings in the reachable states). -/
inductive MTree where
  | leaf : Seg → MTree
  | dict : List (Seg × MTree) → MTree

/-- Python dict lookup on the accumulator (`cur[key]` / `key in cur` for a
dict `cur`): first binding of the key, in insertion order. -/
def find_key (k : Seg) : List (Seg × MTree) → Option MTree
  | [] => none
  | (k₁, t) :: rest => if k₁ = k then some t else find_key k rest

/-- Python dict assignment `cur[key] = node`: replaces the binding in place
when the key is present (keeping its position), appends otherwise. -/
def set_key (k : Seg) (t : MTree) : List (Seg × MTree) → List (Seg × MTree)
  | [] => [(k, t)]
  | (k₁, t₁) :: rest => if k₁ = k then (k, t) :: rest else (k₁, t₁) :: set_key k t rest

/-- The `cur[key] == 'NoneType'` test of `_merge_paths`: true exactly for a
leaf holding the label string `"NoneType"`. -/
def is_none_leaf : MTree → Bool
  | .leaf (.str s) => s == "NoneType"
  | _ => false

/-- One iteration block of the `for path in paths` loop of `_merge_paths`,
walking the non-terminal segments of one path through the accumulator.
`node` is the fresh value bound on demand: the terminal label on the last
step, an empty dict otherwise.  A pre-existing binding is kept unless it is
the `"NoneType"` leaf (the null-override rule).  Descending *through* a leaf
with at least two segments still to process corresponds to the source
indexing into a string (`cur[key]` with `cur` a `str`), which raises
`TypeError`; that is the `.error` case. -/
def merge_step : MTree → List Seg → Except Unit MTree
  | t, [] => .ok t
  | t, [_] => .ok t
  | .leaf _, _ :: _ :: _ => .error ()
  | .dict es, k :: r :: rest =>
    let node : MTree := if rest.isEmpty then .leaf r else .dict []
    match find_key k es with
    | none => (merge_step node (r :: rest)).map (fun sub => .dict (set_key k sub es))
    | some t' =>
      if is_none_leaf t' then
        (merge_step node (r :: rest)).map (fun sub => .dict (set_key k sub es))
      else
        (merge_step t' (r :: rest)).map (fun sub => .dict (set_key k sub es))

/-- The whole `for path in paths` loop of `_merge_paths`, starting from the
empty accumulator and propagating the first exception. -/
def merge_fold : MTree → List SPath → Except Unit MTree
  | t, [] => .ok t
  | t, p :: ps =>
    match merge_step t p with
    | .error e => .error e
    | .ok t' => merge_fold t' ps

/-- The output shape tree: type-label leaves (`atom`), sequences, and
mappings.  Mapping keys are segments because the source keeps whatever key
objects the accumulator holds; on heterogeneous input an `Index` object can
survive as a mapping key. -/
inductive ShapeTree where
  | atom : Seg → ShapeTree
  | seq : List ShapeTree → ShapeTree
  | dict : List (Seg × ShapeTree) → ShapeTree

mutual
/-- Embedding of `_convert_lists`: a non-dict (leaf) or an empty dict is
returned unchanged; a non-empty dict whose *first* key is an index marker
becomes the list of its converted values, any other non-empty dict a mapping
of converted values. -/
def convert_lists : MTree → ShapeTree
  | .leaf s => .atom s
  | .dict [] => .dict []
  | .dict ((k, t) :: rest) =>
    match k with
    | .idx _ => .seq (convert_vals ((k, t) :: rest))
    | .str _ => .dict (convert_entries ((k, t) :: rest))

/-- `[_convert_lists(v) for v in coll.values()]`. -/
def convert_vals : List (Seg × MTree) → List ShapeTree
  | [] => []
  | (_, t) :: rest => convert_lists t :: convert_vals rest

/-- `{k: _convert_lists(v) for k, v in coll.items()}`. -/
def convert_entries : List (Seg × MTree) → List (Seg × ShapeTree)
  | [] => []
  | (k, t) :: rest => (k, convert_lists t) :: convert_entries rest
end

/-- Embedding of `_merge_paths`: the merge fold followed by
`_convert_lists`. -/
def merge_paths (paths : List SPath) : Except Unit ShapeTree :=
  (merge_fold (.dict []) paths).map convert_lists

/-- The path list handed to `_merge_paths` by `shape`: extraction, pattern
rewriting, numeric description, optional sort, collapsing. -/
def paths_before_merge (key_patterns : List (String × String))
    (describe_numbers sort : Bool) (data : Value) : List SPath :=
  collapse_paths (sort_stage sort
    (describe_numbers_stage describe_numbers
      (apply_patterns_stage key_patterns (get_paths describe_numbers data))))

/-- Embedding of `shape`.  The Python defaults are
`key_patterns = []`, `describe_numbers = false`, `sort = false`. -/
def shape (data : Value) (key_patterns : List (String × String))
    (describe_numbers sort : Bool) : Except Unit ShapeTree :=
  merge_paths (paths_before_merge key_patterns describe_numbers sort data)

/-- A scalar input: neither a recognised sequence type nor a mapping, so
`_get_paths` labels it directly. -/
def is_scalar : Value → Bool
  | .vlist _ => false
  | .vdict _ => false
  | _ => true

mutual
/-- Does every sequence node of a shape tree hold exactly one element? -/
def one_elem_seqs : ShapeTree → Bool
  | .atom _ => true
  | .seq l => (l.length == 1) && one_elem_seqs_list l
  | .dict es => one_elem_seqs_entries es

def one_elem_seqs_list : List ShapeTree → Bool
  | [] => true
  | s :: rest => one_elem_seqs s && one_elem_seqs_list rest

def one_elem_seqs_entries : List (Seg × ShapeTree) → Bool
  | [] => true
  | (_, s) :: rest => one_elem_seqs s && one_elem_seqs_entries rest
end

mutual
/-- The structural invariant shape's output does satisfy: every leaf is a
type-label string and every sequence node is non-empty. -/
def good_shape : ShapeTree → Bool
  | .atom (.str _) => true
  | .atom (.idx _) => false
  | .seq l => !l.isEmpty && good_shape_list l
  | .dict es => good_shape_entries es

def good_shape_list : List ShapeTree → Bool
  | [] => true
  | s :: rest => good_shape s && good_shape_list rest

def good_shape_entries : List (Seg × ShapeTree) → Bool
  | [] => true
  | (_, s) :: rest => good_shape s && good_shape_entries rest
end

mutual
/-- Every leaf stored in the merge accumulator is a string label. -/
def leaves_str : MTree → Bool
  | .leaf (.str _) => true
  | .leaf (.idx _) => false
  | .dict es => leaves_str_entries es

def leaves_str_entries : List (Seg × MTree) → Bool
  | [] => true
  | (_, t) :: rest => leaves_str t && leaves_str_entries rest
end

/-- Does walking the key sequence `pos` through the accumulator land on a
leaf? -/
def is_leaf_at : MTree → List Seg → Bool
  | .leaf _, [] => true
  | .leaf _, _ :: _ => false
  | .dict _, [] => false
  | .dict es, k :: rest =>
    match find_key k es with
    | some t => is_leaf_at t rest
    | none => false

/-- Conflict-freedom of a collapsed path list: no path's non-terminal part
is a proper ancestor of a longer path.  When this holds the merge fold never
walks through a stored leaf, so no exception is raised. -/
def no_conflict (paths : List SPath) : Bool :=
  paths.all fun p => paths.all fun q => !(p.dropLast.isPrefixOf q) || q.length ≤ p.length

/-! Helper lemmas. -/

theorem rat_three_half_beq_zero : ((3.5 : Rat) == 0) = false := by norm_num

theorem set_key_find_self (k : Seg) (t : MTree) :
    ∀ es : List (Seg × MTree), find_key k es = some t → set_key k t es = es := by
  intro es
  induction es with
  | nil => intro h; simp [find_key] at h
  | cons e rest ih =>
    obtain ⟨k₁, t₁⟩ := e
    intro h
    by_cases hk : k₁ = k
    · simp [find_key, hk] at h
      simp [set_key, hk, h]
    · simp [find_key, hk] at h
      simp [set_key, hk, ih h]

theorem apply_patterns_str (kp : List (String × String)) (s : String) :
    apply_patterns kp (Seg.str s) = Seg.str (if kp.isEmpty then s else subst_all kp s) := by
  by_cases h : kp.isEmpty <;> simp [apply_patterns, h]

theorem sort_stage_nil (so : Bool) : sort_stage so [] = [] := by
  cases so <;> simp [sort_stage]

theorem sort_stage_single (so : Bool) (p : SPath) : sort_stage so [p] = [p] := by
  cases so <;> simp [sort_stage]

theorem shape_single_label (v : Value) (s : String) (kp : List (String × String)) (db so : Bool)
    (h : get_paths db v = [[Seg.str s]]) : shape v kp db so = Except.ok (ShapeTree.dict []) := by
  have happ : apply_patterns_stage kp [[Seg.str s]]
      = [[Seg.str (if kp.isEmpty then s else subst_all kp s)]] := by
    simp [apply_patterns_stage, apply_patterns_str]
  simp only [shape, paths_before_merge, h, describe_numbers_stage, happ, sort_stage_single]
  rfl

/-! Claim theorems. -/

/-- C1: for a top-level scalar with numeric description enabled the
*extractor* does produce the qualified labels `"int:zero"` / `"float:nonzero"`,
but `shape` itself returns the empty mapping, because `_merge_paths` never
binds anything for a path of length one — the claimed string results are
unreachable. -/
theorem c1_top_scalar_describe_numbers :
    get_paths true (Value.vint 0) = [[Seg.str "int:zero"]]
    ∧ get_paths true (Value.vfloat 3.5) = [[Seg.str "float:nonzero"]]
    ∧ shape (Value.vint 0) [] true false = Except.ok (ShapeTree.dict [])
    ∧ shape (Value.vfloat 3.5) [] true false = Except.ok (ShapeTree.dict []) := by
  refine ⟨rfl, ?_, rfl, ?_⟩
  · simp only [get_paths, rat_three_half_beq_zero]
    rfl
  · simp only [shape, paths_before_merge, get_paths, rat_three_half_beq_zero]
    rfl

/-- C2 counterexample: on `[{"a": 1}, {"a": {"b": 2}}]` — an input built
only from mappings, sequences and scalars — the merge fold walks through the
leaf stored for the first element's `"a"` and raises (`TypeError` in the
source), so `shape` is not total on its claimed domain. -/
theorem c2_counterexample :
    shape (Value.vlist [Value.vdict [("a", Value.vint 1)],
        Value.vdict [("a", Value.vdict [("b", Value.vint 2)])]]) [] false false
      = Except.error () := rfl

/-- C3: `shape([None, 5])` and `shape([5, None])` both yield the
one-element sequence wrapping `"int"`; and at the single-step level of the
merge fold, a stored `"NoneType"` leaf is overwritten by a later assignment
while any other stored leaf is left untouched. -/
theorem c3_null_override :
    shape (Value.vlist [Value.vnull, Value.vint 5]) [] false false
      = Except.ok (ShapeTree.seq [ShapeTree.atom (Seg.str "int")])
    ∧ shape (Value.vlist [Value.vint 5, Value.vnull]) [] false false
      = Except.ok (ShapeTree.seq [ShapeTree.atom (Seg.str "int")])
    ∧ (∀ (es : List (Seg × MTree)) (k r : Seg),
        find_key k es = some (MTree.leaf (Seg.str "NoneType")) →
        merge_step (MTree.dict es) [k, r]
          = Except.ok (MTree.dict (set_key k (MTree.leaf r) es)))
    ∧ (∀ (es : List (Seg × MTree)) (k r : Seg) (t' : MTree),
        find_key k es = some t' → is_none_leaf t' = false →
        merge_step (MTree.dict es) [k, r] = Except.ok (MTree.dict es)) := by
  refine ⟨rfl, rfl, ?_, ?_⟩
  · intro es k r h
    simp [merge_step, h, is_none_leaf, Except.map]
  · intro es k r t' h hn
    simp [merge_step, h, hn, Except.map, set_key_find_self k t' es h]

/-- Witness for C3's quantified conjuncts at concrete inputs. -/
theorem c3_null_override_witness :
    merge_step (MTree.dict [(Seg.str "k", MTree.leaf (Seg.str "NoneType"))])
        [Seg.str "k", Seg.str "int"]
      = Except.ok (MTree.dict [(Seg.str "k", MTree.leaf (Seg.str "int"))])
    ∧ merge_step (MTree.dict [(Seg.str "k", MTree.leaf (Seg.str "int"))])
        [Seg.str "k", Seg.str "NoneType"]
      = Except.ok (MTree.dict [(Seg.str "k", MTree.leaf (Seg.str "int"))]) :=
  ⟨c3_null_override.2.2.1 [(Seg.str "k", MTree.leaf (Seg.str "NoneType"))]
      (Seg.str "k") (Seg.str "int") (by rfl),
   c3_null_override.2.2.2 [(Seg.str "k", MTree.leaf (Seg.str "int"))]
      (Seg.str "k") (Seg.str "NoneType") (MTree.leaf (Seg.str "int")) (by rfl) (by rfl)⟩

/-- C4 counterexample: `shape([])` returns the empty *mapping* `{}`, not
the empty sequence `[]`, and `shape({"x": []})` also returns `{}`, not
`{"x": []}`: an empty container contributes no paths, so its position
disappears from the output instead of passing through. -/
theorem c4_counterexample :
    shape (Value.vlist []) [] false false = Except.ok (ShapeTree.dict [])
    ∧ shape (Value.vdict [("x", Value.vlist [])]) [] false false
        = Except.ok (ShapeTree.dict [])
    ∧ (Except.ok (ShapeTree.dict []) : Except Unit ShapeTree) ≠ Except.ok (ShapeTree.seq [])
    ∧ (Except.ok (ShapeTree.dict []) : Except Unit ShapeTree)
        ≠ Except.ok (ShapeTree.dict [(Seg.str "x", ShapeTree.seq [])]) := by
  refine ⟨rfl, rfl, ?_, ?_⟩ <;> simp

/-- C4 amended: empty containers are invisible — for every option setting,
`shape([])` and `shape({"x": []})` both return the empty mapping. -/
theorem c4_empty_containers_invisible :
    ∀ (kp : List (String × String)) (db so : Bool),
      shape (Value.vlist []) kp db so = Except.ok (ShapeTree.dict [])
      ∧ shape (Value.vdict [("x", Value.vlist [])]) kp db so
          = Except.ok (ShapeTree.dict []) := by
  intro kp db so
  constructor <;>
    simp only [shape, paths_before_merge, get_paths, get_paths_seq, get_paths_map,
      apply_patterns_stage, describe_numbers_stage, List.map_nil, List.nil_append,
      List.append_nil, sort_stage_nil] <;>
    rfl

/-- C5 counterexample: on `[[1], {"b": 2}]` the returned tree contains a
sequence node with two elements, refuting "every sequence node contains
exactly one element". -/
theorem c5_counterexample :
    shape (Value.vlist [Value.vlist [Value.vint 1], Value.vdict [("b", Value.vint 2)]])
        [] false false
      = Except.ok (ShapeTree.seq [ShapeTree.seq
          [ShapeTree.atom (Seg.str "int"), ShapeTree.atom (Seg.str "int")]])
    ∧ one_elem_seqs (ShapeTree.seq [ShapeTree.seq
          [ShapeTree.atom (Seg.str "int"), ShapeTree.atom (Seg.str "int")]]) = false := by
  exact ⟨rfl, rfl⟩

/-- C6 counterexample: with `key_patterns = {"int": "X"}` the rewriting
stage changes the terminal type-label segment of the extracted path of
`{"a": 1}` from `"int"` to `"X"`. -/
theorem c6_counterexample :
    get_paths false (Value.vdict [("a", Value.vint 1)]) = [[Seg.str "a", Seg.str "int"]]
    ∧ apply_patterns_stage [("int", "X")] [[Seg.str "a", Seg.str "int"]]
        = [[Seg.str "a", Seg.str "X"]]
    ∧ Seg.str "X" ≠ Seg.str "int" := by
  refine ⟨rfl, rfl, ?_⟩
  simp

/-- C9: a top-level scalar (anything that is neither a recognised sequence
nor a mapping, null included) always yields the empty mapping, whatever the
options: its single extracted path has length one, and the merge fold's loop
body runs zero times for such a path. -/
theorem c9_top_scalar_empty_dict :
    ∀ (v : Value), is_scalar v = true →
      ∀ (kp : List (String × String)) (db so : Bool),
        shape v kp db so = Except.ok (ShapeTree.dict []) := by
  intro v hv kp db so
  cases v with
  | vnull => exact shape_single_label _ _ kp db so rfl
  | vbool b => exact shape_single_label _ _ kp db so rfl
  | vstr s => exact shape_single_label _ _ kp db so rfl
  | vint n =>
    cases db with
    | false => exact shape_single_label _ _ kp false so rfl
    | true => exact shape_single_label _ ("int:" ++ num_desc (n == 0)) kp true so rfl
  | vfloat q =>
    cases db with
    | false => exact shape_single_label _ _ kp false so rfl
    | true => exact shape_single_label _ ("float:" ++ num_desc (q == 0)) kp true so rfl
  | vlist l => simp [is_scalar] at hv
  | vdict kvs => simp [is_scalar] at hv

/-- Witness for C9 at a concrete scalar and concrete options. -/
theorem c9_top_scalar_empty_dict_witness :
    shape Value.vnull [("a", "b")] true true = Except.ok (ShapeTree.dict []) :=
  c9_top_scalar_empty_dict Value.vnull rfl [("a", "b")] true true

/-- C10: booleans never receive a zero/nonzero qualifier: the extractor
labels a boolean leaf exactly `"bool"` even with numeric description on
(the source tests the exact dynamic type against `int` and `float`, which
excludes `bool`), and `shape` propagates that label. -/
theorem c10_bool_never_qualified :
    (∀ (db b : Bool), get_paths db (Value.vbool b) = [[Seg.str "bool"]])
    ∧ (∀ b : Bool, shape (Value.vdict [("a", Value.vbool b)]) [] true false
        = Except.ok (ShapeTree.dict [(Seg.str "a", ShapeTree.atom (Seg.str "bool"))]))
    ∧ (∀ b : Bool, shape (Value.vlist [Value.vbool b, Value.vint 0]) [] true false
        = Except.ok (ShapeTree.seq [ShapeTree.atom (Seg.str "bool")])) := by
  refine ⟨fun db b => rfl, fun b => rfl, fun b => rfl⟩

/-! C7 infrastructure: collapsing a homogeneous list of `{"a": int}`. -/

theorem apply_patterns_nil_seg (x : Seg) : apply_patterns [] x = x := by
  cases x <;> rfl

theorem apply_patterns_stage_nil (ps : List SPath) : apply_patterns_stage [] ps = ps := by
  have h : apply_patterns [] = id := funext apply_patterns_nil_seg
  simp [apply_patterns_stage, h]

theorem homog_paths_collapse (xs : List Int) :
    ∀ i : Nat,
      (get_paths_seq false i (xs.map fun n => Value.vdict [("a", Value.vint n)])).map
          (fun p => p.map collapse_seg)
        = List.replicate xs.length [Seg.idx 0, Seg.str "a", Seg.str "int"] := by
  induction xs with
  | nil => intro i; rfl
  | cons n rest ih =>
    intro i
    simp only [List.map_cons, get_paths_seq, List.length_cons, List.replicate_succ,
      List.map_append]
    rw [show get_paths false (Value.vdict [("a", Value.vint n)])
        = [[Seg.str "a", Seg.str "int"]] from rfl]
    simp [collapse_seg, ih (i + 1)]

theorem dedup_aux_replicate_mem (p : SPath) :
    ∀ (n : Nat) (seen : List SPath), p ∈ seen → dedup_aux seen (List.replicate n p) = [] := by
  intro n
  induction n with
  | zero => intro seen h; rfl
  | succ m ih => intro seen h; simp [List.replicate_succ, dedup_aux, h, ih seen h]

theorem dedup_aux_replicate (p : SPath) (n : Nat) :
    dedup_aux [] (List.replicate (n + 1) p) = [p] := by
  have hm : p ∈ [p] := by simp
  simp [List.replicate_succ, dedup_aux, dedup_aux_replicate_mem p n [p] hm]

/-- C7: a non-empty homogeneous sequence of `{"a": <int>}` mappings yields
the one-element sequence wrapping `{"a": "int"}`, whatever its length: all
collapsed paths coincide, deduplication keeps a single path, and the merge
rebuilds the one-slot tree. -/
theorem c7_homogeneous_collapsing :
    ∀ xs : List Int, xs ≠ [] →
      shape (Value.vlist (xs.map fun n => Value.vdict [("a", Value.vint n)])) [] false false
        = Except.ok (ShapeTree.seq
            [ShapeTree.dict [(Seg.str "a", ShapeTree.atom (Seg.str "int"))]]) := by
  intro xs hne
  match xs, hne with
  | n :: rest, _ =>
    have hc : paths_before_merge [] false false
        (Value.vlist ((n :: rest).map fun m => Value.vdict [("a", Value.vint m)]))
        = [[Seg.idx 0, Seg.str "a", Seg.str "int"]] := by
      simp only [paths_before_merge, get_paths, apply_patterns_stage_nil,
        describe_numbers_stage, sort_stage, if_neg Bool.false_ne_true, collapse_paths]
      rw [homog_paths_collapse (n :: rest) 0, List.length_cons, dedup_aux_replicate]
    simp only [shape, hc]
    rfl

/-- Witness for C7 at the spec's own example `[{"a":1},{"a":2},{"a":3}]`. -/
theorem c7_homogeneous_collapsing_witness :
    shape (Value.vlist [Value.vdict [("a", Value.vint 1)], Value.vdict [("a", Value.vint 2)],
        Value.vdict [("a", Value.vint 3)]]) [] false false
      = Except.ok (ShapeTree.seq
          [ShapeTree.dict [(Seg.str "a", ShapeTree.atom (Seg.str "int"))]]) :=
  c7_homogeneous_collapsing [1, 2, 3] (by simp)

/-! C6 infrastructure: every extracted path ends in a string type label. -/

theorem get_paths_ends_str (db : Bool) :
    ∀ v : Value, ∀ p ∈ get_paths db v, ∃ ks s, p = ks ++ [Seg.str s] := by
  refine get_paths.induct db
    (fun v => ∀ p ∈ get_paths db v, ∃ ks s, p = ks ++ [Seg.str s])
    (fun kvs => ∀ p ∈ get_paths_map db kvs, ∃ ks s, p = ks ++ [Seg.str s])
    (fun i l => ∀ p ∈ get_paths_seq db i l, ∃ ks s, p = ks ++ [Seg.str s])
    ?_ ?_ ?_ ?_ ?_ ?_ ?_ ?_ ?_ ?_ ?_ ?_ ?_
  · intro l h
    exact h
  · intro kvs h
    exact h
  · intro p hp
    simp only [get_paths, List.mem_singleton] at hp
    exact ⟨[], "NoneType", by simpa using hp⟩
  · intro b p hp
    simp only [get_paths, List.mem_singleton] at hp
    exact ⟨[], "bool", by simpa using hp⟩
  · intro a p hp
    simp only [get_paths, List.mem_singleton] at hp
    exact ⟨[], "str", by simpa using hp⟩
  · intro n hdb p hp
    subst hdb
    simp only [get_paths, if_true, List.mem_singleton] at hp
    exact ⟨[], "int:" ++ num_desc (n == 0), by simpa using hp⟩
  · intro n hdb p hp
    rw [Bool.not_eq_true] at hdb
    subst hdb
    simp only [get_paths, Bool.false_eq_true, if_false, List.mem_singleton] at hp
    exact ⟨[], "int", by simpa using hp⟩
  · intro q hdb p hp
    subst hdb
    simp only [get_paths, if_true, List.mem_singleton] at hp
    exact ⟨[], "float:" ++ num_desc (q == 0), by simpa using hp⟩
  · intro q hdb p hp
    rw [Bool.not_eq_true] at hdb
    subst hdb
    simp only [get_paths, Bool.false_eq_true, if_false, List.mem_singleton] at hp
    exact ⟨[], "float", by simpa using hp⟩
  · intro i p hp
    simp [get_paths_seq] at hp
  · intro i v rest ihv ihrest p hp
    simp only [get_paths_seq, List.mem_append, List.mem_map] at hp
    rcases hp with ⟨q, hq, rfl⟩ | hp
    · obtain ⟨ks, s, rfl⟩ := ihv q hq
      exact ⟨Seg.idx i :: ks, s, rfl⟩
    · exact ihrest p hp
  · intro p hp
    simp [get_paths_map] at hp
  · intro k v rest ihv ihrest p hp
    simp only [get_paths_map, List.mem_append, List.mem_map] at hp
    rcases hp with ⟨q, hq, rfl⟩ | hp
    · obtain ⟨ks, s, rfl⟩ := ihv q hq
      exact ⟨Seg.str k :: ks, s, rfl⟩
    · exact ihrest p hp

/-- C6 amended: every extracted path ends in a string type label, and the
rewriting stage rewrites that terminal segment exactly like any other string
segment (it is *not* left unchanged): the rewritten path ends in the label's
image under the pattern fold. -/
theorem c6_terminal_label_rewritten :
    ∀ (db : Bool) (v : Value) (p : SPath), p ∈ get_paths db v →
      ∃ ks s, p = ks ++ [Seg.str s]
        ∧ ∀ kp : List (String × String),
            p.map (apply_patterns kp)
              = ks.map (apply_patterns kp)
                ++ [Seg.str (if kp.isEmpty then s else subst_all kp s)] := by
  intro db v p hp
  obtain ⟨ks, s, rfl⟩ := get_paths_ends_str db v p hp
  refine ⟨ks, s, rfl, fun kp => ?_⟩
  simp [List.map_append, apply_patterns_str]

/-- Witness for C6's amended theorem on the extracted path of `{"a": 1}`. -/
theorem c6_terminal_label_rewritten_witness :
    ∃ ks s, [Seg.str "a", Seg.str "int"] = ks ++ [Seg.str s]
      ∧ ∀ kp : List (String × String),
          List.map (apply_patterns kp) [Seg.str "a", Seg.str "int"]
            = ks.map (apply_patterns kp)
              ++ [Seg.str (if kp.isEmpty then s else subst_all kp s)] :=
  c6_terminal_label_rewritten false (Value.vdict [("a", Value.vint 1)])
    [Seg.str "a", Seg.str "int"] (by simp [get_paths, get_paths_map])


/-! C5 infrastructure: structural invariants of the returned tree. -/

/-- Is the final segment of a path (if any) a string?  Holds vacuously for
the empty path. -/
def last_is_str : SPath → Bool
  | [] => true
  | [x] =>
    match x with
    | Seg.str _ => true
    | Seg.idx _ => false
  | _ :: b :: rest => last_is_str (b :: rest)

theorem last_is_str_concat : ∀ (xs : List Seg) (s : String),
    last_is_str (xs ++ [Seg.str s]) = true := by
  intro xs s
  induction xs with
  | nil => rfl
  | cons a rest ih =>
    cases rest with
    | nil => rfl
    | cons b t => exact ih

theorem except_map_ok {α β γ : Type} (f : α → β) (x : Except γ α) (y : β) :
    x.map f = Except.ok y → ∃ z, x = Except.ok z ∧ y = f z := by
  intro h
  cases x with
  | error e => simp [Except.map] at h
  | ok z => exact ⟨z, rfl, by simpa [Except.map] using h.symm⟩

theorem find_key_leaves_str : ∀ (es : List (Seg × MTree)) (k : Seg) (t : MTree),
    leaves_str_entries es = true → find_key k es = some t → leaves_str t = true := by
  intro es
  induction es with
  | nil => intro k t _ h; simp [find_key] at h
  | cons e rest ih =>
    obtain ⟨k₁, t₁⟩ := e
    intro k t hes h
    simp only [leaves_str_entries, Bool.and_eq_true] at hes
    by_cases hk : k₁ = k
    · simp only [find_key, if_pos hk, Option.some.injEq] at h
      exact h ▸ hes.1
    · simp only [find_key, if_neg hk] at h
      exact ih k t hes.2 h

theorem set_key_leaves_str : ∀ (es : List (Seg × MTree)) (k : Seg) (t : MTree),
    leaves_str_entries es = true → leaves_str t = true →
    leaves_str_entries (set_key k t es) = true := by
  intro es
  induction es with
  | nil => intro k t _ ht; simpa [set_key, leaves_str_entries] using ht
  | cons e rest ih =>
    obtain ⟨k₁, t₁⟩ := e
    intro k t hes ht
    simp only [leaves_str_entries, Bool.and_eq_true] at hes
    by_cases hk : k₁ = k
    · simp [set_key, if_pos hk, leaves_str_entries, ht, hes.2]
    · simp [set_key, if_neg hk, leaves_str_entries, hes.1, ih k t hes.2 ht]

theorem merge_step_leaves_str : ∀ (t : MTree) (segs : List Seg), ∀ t' : MTree,
    merge_step t segs = Except.ok t' → leaves_str t = true → last_is_str segs = true →
    leaves_str t' = true := by
  refine merge_step.induct
    (fun t segs => ∀ t', merge_step t segs = Except.ok t' → leaves_str t = true →
      last_is_str segs = true → leaves_str t' = true)
    ?_ ?_ ?_ ?_ ?_ ?_
  · intro t t' h hl _
    simp only [merge_step, Except.ok.injEq] at h
    exact h ▸ hl
  · intro t x t' h hl _
    simp only [merge_step, Except.ok.injEq] at h
    exact h ▸ hl
  · intro a x y tail t' h _ _
    simp [merge_step] at h
  · intro es k r rest node hfind ih t' h hl hlast
    have hnode : leaves_str node = true := by
      show leaves_str (if rest.isEmpty then MTree.leaf r else MTree.dict []) = true
      cases rest with
      | nil =>
        cases r with
        | idx i => simp [last_is_str] at hlast
        | str s => rfl
      | cons b tail => rfl
    have h' : (merge_step node (r :: rest)).map (fun sub => MTree.dict (set_key k sub es))
        = Except.ok t' := by
      simpa only [merge_step, hfind] using h
    obtain ⟨sub, hsub, rfl⟩ := except_map_ok _ _ _ h'
    have hsubl : leaves_str sub = true := ih sub hsub hnode hlast
    simpa only [leaves_str] using
      set_key_leaves_str es k sub (by simpa only [leaves_str] using hl) hsubl
  · intro es k r rest node t₀ hfind hnone ih t' h hl hlast
    have hnode : leaves_str node = true := by
      show leaves_str (if rest.isEmpty then MTree.leaf r else MTree.dict []) = true
      cases rest with
      | nil =>
        cases r with
        | idx i => simp [last_is_str] at hlast
        | str s => rfl
      | cons b tail => rfl
    have h' : (merge_step node (r :: rest)).map (fun sub => MTree.dict (set_key k sub es))
        = Except.ok t' := by
      simpa only [merge_step, hfind, hnone, if_pos rfl] using h
    obtain ⟨sub, hsub, rfl⟩ := except_map_ok _ _ _ h'
    have hsubl : leaves_str sub = true := ih sub hsub hnode hlast
    simpa only [leaves_str] using
      set_key_leaves_str es k sub (by simpa only [leaves_str] using hl) hsubl
  · intro es k r rest t₁ hfind hnone ih t' h hl hlast
    have ht₁ : leaves_str t₁ = true :=
      find_key_leaves_str es k t₁ (by simpa only [leaves_str] using hl) hfind
    have h' : (merge_step t₁ (r :: rest)).map (fun sub => MTree.dict (set_key k sub es))
        = Except.ok t' := by
      simpa only [merge_step, hfind, hnone, if_neg hnone] using h
    obtain ⟨sub, hsub, rfl⟩ := except_map_ok _ _ _ h'
    have hsubl : leaves_str sub = true := ih sub hsub ht₁ hlast
    simpa only [leaves_str] using
      set_key_leaves_str es k sub (by simpa only [leaves_str] using hl) hsubl

theorem merge_fold_leaves_str : ∀ (ps : List SPath) (t t' : MTree),
    merge_fold t ps = Except.ok t' → leaves_str t = true →
    (∀ p ∈ ps, last_is_str p = true) → leaves_str t' = true := by
  intro ps
  induction ps with
  | nil =>
    intro t t' h hl _
    simp only [merge_fold, Except.ok.injEq] at h
    exact h ▸ hl
  | cons p rest ih =>
    intro t t' h hl hall
    cases hstep : merge_step t p with
    | error e => simp [merge_fold, hstep] at h
    | ok t₁ =>
      simp only [merge_fold, hstep] at h
      have hl₁ : leaves_str t₁ = true :=
        merge_step_leaves_str t p t₁ hstep hl (hall p (List.mem_cons_self p rest))
      exact ih t₁ t' h hl₁ (fun q hq => hall q (List.mem_cons_of_mem p hq))

theorem convert_lists_good : ∀ t : MTree,
    leaves_str t = true → good_shape (convert_lists t) = true := by
  refine convert_lists.induct
    (fun t => leaves_str t = true → good_shape (convert_lists t) = true)
    (fun es => leaves_str_entries es = true → good_shape_entries (convert_entries es) = true)
    (fun es => leaves_str_entries es = true → good_shape_list (convert_vals es) = true)
    ?_ ?_ ?_ ?_ ?_ ?_ ?_ ?_
  · intro s hs
    cases s with
    | idx i => simp [leaves_str] at hs
    | str t => rfl
  · intro _
    rfl
  · intro t rest a ih hl
    have hents : leaves_str_entries ((Seg.idx a, t) :: rest) = true := by
      simpa only [leaves_str] using hl
    simp only [convert_lists, good_shape, Bool.and_eq_true]
    exact ⟨by simp [convert_vals], by simpa only [good_shape] using ih hents⟩
  · intro t rest s ih hl
    have hents : leaves_str_entries ((Seg.str s, t) :: rest) = true := by
      simpa only [leaves_str] using hl
    simpa only [convert_lists, good_shape] using ih hents
  · intro _
    rfl
  · intro k₁ t rest iht ihrest hl
    simp only [leaves_str_entries, Bool.and_eq_true] at hl
    simp only [convert_entries, good_shape_entries, Bool.and_eq_true]
    exact ⟨iht hl.1, ihrest hl.2⟩
  · intro _
    rfl
  · intro k₁ t rest iht ihrest hl
    simp only [leaves_str_entries, Bool.and_eq_true] at hl
    simp only [convert_vals, good_shape_list, Bool.and_eq_true]
    exact ⟨iht hl.1, ihrest hl.2⟩

theorem dedup_aux_subset : ∀ (l seen : List SPath) (p : SPath),
    p ∈ dedup_aux seen l → p ∈ l := by
  intro l
  induction l with
  | nil => intro seen p h; simp [dedup_aux] at h
  | cons q rest ih =>
    intro seen p h
    simp only [dedup_aux] at h
    by_cases hq : q ∈ seen
    · rw [if_pos hq] at h
      exact List.mem_cons_of_mem q (ih seen p h)
    · rw [if_neg hq] at h
      rcases List.mem_cons.mp h with rfl | h'
      · exact List.mem_cons_self p rest
      · exact List.mem_cons_of_mem q (ih (q :: seen) p h')

theorem sort_stage_mem : ∀ (so : Bool) (ps : List SPath) (p : SPath),
    p ∈ sort_stage so ps → p ∈ ps := by
  intro so ps p h
  cases so with
  | false => exact h
  | true => exact (List.mergeSort_perm ps path_le).mem_iff.mp h

theorem paths_before_merge_last_str :
    ∀ (kp : List (String × String)) (db so : Bool) (v : Value) (p : SPath),
      p ∈ paths_before_merge kp db so v → last_is_str p = true := by
  intro kp db so v p hp
  simp only [paths_before_merge, collapse_paths] at hp
  have h1 := dedup_aux_subset _ [] p hp
  obtain ⟨p₁, hp₁, rfl⟩ := List.mem_map.mp h1
  have hp₂ : p₁ ∈ apply_patterns_stage kp (get_paths db v) := sort_stage_mem so _ p₁ hp₁
  obtain ⟨p₂, hp₂', rfl⟩ := List.mem_map.mp hp₂
  obtain ⟨ks, s, rfl⟩ := get_paths_ends_str db v p₂ hp₂'
  simp only [List.map_append, List.map_cons, List.map_nil, apply_patterns_str]
  exact last_is_str_concat _ _

/-- C5 amended: whenever `shape` returns a tree, every leaf of it is a
type-label string and every sequence node is non-empty (`good_shape`); the
exactly-one-element property of the original claim fails on heterogeneous
input (see the counterexample). -/
theorem c5_shape_tree_invariant :
    ∀ (v : Value) (kp : List (String × String)) (db so : Bool) (t : ShapeTree),
      shape v kp db so = Except.ok t → good_shape t = true := by
  intro v kp db so t h
  simp only [shape, merge_paths] at h
  obtain ⟨t₀, hfold, rfl⟩ := except_map_ok _ _ _ h
  have hls : leaves_str t₀ = true :=
    merge_fold_leaves_str _ _ _ hfold rfl
      (fun p hp => paths_before_merge_last_str kp db so v p hp)
  exact convert_lists_good t₀ hls

/-- Witness for C5's amended invariant on the output of
`shape({"a": 1, "b": [2]})`. -/
theorem c5_shape_tree_invariant_witness :
    good_shape (ShapeTree.dict [(Seg.str "a", ShapeTree.atom (Seg.str "int")),
      (Seg.str "b", ShapeTree.seq [ShapeTree.atom (Seg.str "int")])]) = true :=
  c5_shape_tree_invariant
    (Value.vdict [("a", Value.vint 1), ("b", Value.vlist [Value.vint 2])]) [] false false
    (ShapeTree.dict [(Seg.str "a", ShapeTree.atom (Seg.str "int")),
      (Seg.str "b", ShapeTree.seq [ShapeTree.atom (Seg.str "int")])]) rfl

/-! C2 infrastructure: the merge fold succeeds on conflict-free path lists. -/

theorem except_map_error {α β γ : Type} (f : α → β) (x : Except γ α) (e : γ) :
    x.map f = Except.error e → x = Except.error e := by
  intro h
  cases x with
  | error e₁ => simpa [Except.map] using h
  | ok z => simp [Except.map] at h

theorem is_leaf_at_empty : ∀ pos : List Seg, is_leaf_at (MTree.dict []) pos = false := by
  intro pos
  cases pos with
  | nil => rfl
  | cons k rest => simp [is_leaf_at, find_key]

theorem find_key_set_key_same : ∀ (es : List (Seg × MTree)) (k : Seg) (t : MTree),
    find_key k (set_key k t es) = some t := by
  intro es k t
  induction es with
  | nil => simp [set_key, find_key]
  | cons e rest ih =>
    obtain ⟨k₁, t₁⟩ := e
    by_cases hk : k₁ = k
    · simp [set_key, if_pos hk, find_key]
    · simp [set_key, if_neg hk, find_key, hk, ih]

theorem find_key_set_key_other : ∀ (es : List (Seg × MTree)) (k k₁ : Seg) (t : MTree),
    k₁ ≠ k → find_key k₁ (set_key k t es) = find_key k₁ es := by
  intro es k k₁ t hne
  induction es with
  | nil => simp [set_key, find_key, Ne.symm hne]
  | cons e rest ih =>
    obtain ⟨k₂, t₂⟩ := e
    by_cases hk : k₂ = k
    · subst hk
      simp [set_key, find_key, Ne.symm hne]
    · simp [set_key, if_neg hk, find_key, ih]

theorem merge_step_error_leaf : ∀ (t : MTree) (segs : List Seg),
    merge_step t segs = Except.error () →
    ∃ n, n + 2 ≤ segs.length ∧ is_leaf_at t (segs.take n) = true := by
  refine merge_step.induct
    (fun t segs => merge_step t segs = Except.error () →
      ∃ n, n + 2 ≤ segs.length ∧ is_leaf_at t (segs.take n) = true)
    ?_ ?_ ?_ ?_ ?_ ?_
  · intro t h
    simp [merge_step] at h
  · intro t x h
    simp [merge_step] at h
  · intro a x y tail _
    exact ⟨0, by simp, rfl⟩
  · intro es k r rest node hfind ih h
    have h' : merge_step node (r :: rest) = Except.error () := by
      apply except_map_error (fun sub => MTree.dict (set_key k sub es))
      simpa only [merge_step, hfind] using h
    obtain ⟨n, hn, hleaf⟩ := ih h'
    exfalso
    by_cases hre : rest.isEmpty
    · rw [List.isEmpty_iff] at hre
      subst hre
      simp at hn
    · have hnode : node = MTree.dict [] := by
        show (if rest.isEmpty then MTree.leaf r else MTree.dict []) = MTree.dict []
        simp [hre]
      rw [hnode, is_leaf_at_empty] at hleaf
      exact Bool.noConfusion hleaf
  · intro es k r rest node t₀ hfind hnone ih h
    have h' : merge_step node (r :: rest) = Except.error () := by
      apply except_map_error (fun sub => MTree.dict (set_key k sub es))
      simpa only [merge_step, hfind, hnone, if_pos rfl] using h
    obtain ⟨n, hn, hleaf⟩ := ih h'
    exfalso
    by_cases hre : rest.isEmpty
    · rw [List.isEmpty_iff] at hre
      subst hre
      simp at hn
    · have hnode : node = MTree.dict [] := by
        show (if rest.isEmpty then MTree.leaf r else MTree.dict []) = MTree.dict []
        simp [hre]
      rw [hnode, is_leaf_at_empty] at hleaf
      exact Bool.noConfusion hleaf
  · intro es k r rest t₁ hfind hnone ih h
    have h' : merge_step t₁ (r :: rest) = Except.error () := by
      apply except_map_error (fun sub => MTree.dict (set_key k sub es))
      simpa only [merge_step, hfind, hnone, if_neg hnone] using h
    obtain ⟨n, hn, hleaf⟩ := ih h'
    refine ⟨n + 1, by simpa using Nat.succ_le_succ hn, ?_⟩
    simpa [is_leaf_at, List.take_succ_cons, hfind] using hleaf

theorem is_leaf_at_found (es : List (Seg × MTree)) (k : Seg) (pos : List Seg) (t : MTree)
    (h : find_key k es = some t) :
    is_leaf_at (MTree.dict es) (k :: pos) = is_leaf_at t pos := by
  simp [is_leaf_at, h]

theorem is_leaf_at_fresh_node (r : Seg) (rest pos' : List Seg)
    (hold : is_leaf_at (if rest.isEmpty then MTree.leaf r else MTree.dict []) pos' = true) :
    rest = [] ∧ pos' = [] := by
  by_cases hre : rest.isEmpty
  · rw [List.isEmpty_iff] at hre
    subst hre
    refine ⟨rfl, ?_⟩
    cases pos' with
    | nil => rfl
    | cons a b => simp [is_leaf_at] at hold
  · rw [if_neg hre, is_leaf_at_empty] at hold
    exact absurd hold (by simp)

theorem merge_step_leaf_at : ∀ (t : MTree) (segs : List Seg), ∀ t' : MTree,
    merge_step t segs = Except.ok t' →
    ∀ pos, is_leaf_at t' pos = true →
      is_leaf_at t pos = true ∨ (2 ≤ segs.length ∧ pos = segs.dropLast) := by
  refine merge_step.induct
    (fun t segs => ∀ t', merge_step t segs = Except.ok t' →
      ∀ pos, is_leaf_at t' pos = true →
        is_leaf_at t pos = true ∨ (2 ≤ segs.length ∧ pos = segs.dropLast))
    ?_ ?_ ?_ ?_ ?_ ?_
  · intro t t' h pos hpos
    simp only [merge_step, Except.ok.injEq] at h
    exact Or.inl (h ▸ hpos)
  · intro t x t' h pos hpos
    simp only [merge_step, Except.ok.injEq] at h
    exact Or.inl (h ▸ hpos)
  · intro a x y tail t' h pos hpos
    simp [merge_step] at h
  · intro es k r rest node hfind ih t' h pos hpos
    have h' : (merge_step node (r :: rest)).map (fun sub => MTree.dict (set_key k sub es))
        = Except.ok t' := by
      simpa only [merge_step, hfind] using h
    obtain ⟨sub, hsub, rfl⟩ := except_map_ok _ _ _ h'
    cases pos with
    | nil => simp [is_leaf_at] at hpos
    | cons k₁ pos' =>
      by_cases hk : k₁ = k
      · subst hk
        rw [is_leaf_at_found _ _ _ sub (find_key_set_key_same es k₁ sub)] at hpos
        rcases ih sub hsub pos' hpos with hold | ⟨hlen, rfl⟩
        · obtain ⟨hrest, hpos'⟩ := is_leaf_at_fresh_node r rest pos' hold
          subst hrest
          subst hpos'
          exact Or.inr ⟨by simp, rfl⟩
        · refine Or.inr ⟨by simp, ?_⟩
          simp [List.dropLast_cons₂]
      · have heq : is_leaf_at (MTree.dict (set_key k sub es)) (k₁ :: pos')
            = is_leaf_at (MTree.dict es) (k₁ :: pos') := by
          simp [is_leaf_at, find_key_set_key_other es k k₁ sub hk]
        exact Or.inl (heq ▸ hpos)
  · intro es k r rest node t₀ hfind hnone ih t' h pos hpos
    have h' : (merge_step node (r :: rest)).map (fun sub => MTree.dict (set_key k sub es))
        = Except.ok t' := by
      simpa only [merge_step, hfind, hnone, if_pos rfl] using h
    obtain ⟨sub, hsub, rfl⟩ := except_map_ok _ _ _ h'
    cases pos with
    | nil => simp [is_leaf_at] at hpos
    | cons k₁ pos' =>
      by_cases hk : k₁ = k
      · subst hk
        rw [is_leaf_at_found _ _ _ sub (find_key_set_key_same es k₁ sub)] at hpos
        rcases ih sub hsub pos' hpos with hold | ⟨hlen, rfl⟩
        · obtain ⟨hrest, hpos'⟩ := is_leaf_at_fresh_node r rest pos' hold
          subst hrest
          subst hpos'
          exact Or.inr ⟨by simp, rfl⟩
        · refine Or.inr ⟨by simp, ?_⟩
          simp [List.dropLast_cons₂]
      · have heq : is_leaf_at (MTree.dict (set_key k sub es)) (k₁ :: pos')
            = is_leaf_at (MTree.dict es) (k₁ :: pos') := by
          simp [is_leaf_at, find_key_set_key_other es k k₁ sub hk]
        exact Or.inl (heq ▸ hpos)
  · intro es k r rest t₁ hfind hnone ih t' h pos hpos
    have h' : (merge_step t₁ (r :: rest)).map (fun sub => MTree.dict (set_key k sub es))
        = Except.ok t' := by
      simpa only [merge_step, hfind, hnone, if_neg hnone] using h
    obtain ⟨sub, hsub, rfl⟩ := except_map_ok _ _ _ h'
    cases pos with
    | nil => simp [is_leaf_at] at hpos
    | cons k₁ pos' =>
      by_cases hk : k₁ = k
      · subst hk
        rw [is_leaf_at_found _ _ _ sub (find_key_set_key_same es k₁ sub)] at hpos
        rcases ih sub hsub pos' hpos with hold | ⟨hlen, rfl⟩
        · rw [← is_leaf_at_found es k₁ pos' t₁ hfind] at hold
          exact Or.inl hold
        · refine Or.inr ⟨by simp, ?_⟩
          simp [List.dropLast_cons₂]
      · have heq : is_leaf_at (MTree.dict (set_key k sub es)) (k₁ :: pos')
            = is_leaf_at (MTree.dict es) (k₁ :: pos') := by
          simp [is_leaf_at, find_key_set_key_other es k k₁ sub hk]
        exact Or.inl (heq ▸ hpos)

theorem merge_fold_ok_of_no_conflict :
    ∀ (todo done : List SPath) (t : MTree),
      (∀ pos, is_leaf_at t pos = true → ∃ p, p ∈ done ∧ 2 ≤ p.length ∧ pos = p.dropLast) →
      (∀ p q : SPath, p ∈ done ++ todo → q ∈ done ++ todo →
          p.dropLast.isPrefixOf q = true → q.length ≤ p.length) →
      ∃ t', merge_fold t todo = Except.ok t' := by
  intro todo
  induction todo with
  | nil =>
    intro done t _ _
    exact ⟨t, rfl⟩
  | cons q rest ih =>
    intro done t hinv hcond
    cases hstep : merge_step t q with
    | error e =>
      exfalso
      obtain ⟨⟩ := e
      obtain ⟨n, hn, hleaf⟩ := merge_step_error_leaf t q hstep
      obtain ⟨p, hpdone, hplen, hpos⟩ := hinv (q.take n) hleaf
      have hqmem : q ∈ done ++ q :: rest := by simp
      have hpmem : p ∈ done ++ q :: rest := List.mem_append_left _ hpdone
      have hpref : p.dropLast.isPrefixOf q = true := by
        rw [List.isPrefixOf_iff_prefix, ← hpos]
        exact List.take_prefix n q
      have hle : q.length ≤ p.length := hcond p q hpmem hqmem hpref
      have hdl : p.dropLast.length = p.length - 1 := List.length_dropLast p
      have htk : (q.take n).length = min n q.length := List.length_take n q
      rw [← hpos] at hdl
      omega
    | ok t₁ =>
      have hinv' : ∀ pos, is_leaf_at t₁ pos = true →
          ∃ p, p ∈ done ++ [q] ∧ 2 ≤ p.length ∧ pos = p.dropLast := by
        intro pos hpos
        rcases merge_step_leaf_at t q t₁ hstep pos hpos with hold | ⟨hlen, rfl⟩
        · obtain ⟨p, hp, h2, hdl⟩ := hinv pos hold
          exact ⟨p, List.mem_append_left _ hp, h2, hdl⟩
        · exact ⟨q, by simp, hlen, rfl⟩
      have hcond' : ∀ p₁ q₁ : SPath, p₁ ∈ (done ++ [q]) ++ rest → q₁ ∈ (done ++ [q]) ++ rest →
          p₁.dropLast.isPrefixOf q₁ = true → q₁.length ≤ p₁.length := by
        intro p₁ q₁ hp₁ hq₁ hpref
        rw [List.append_assoc, List.singleton_append] at hp₁ hq₁
        exact hcond p₁ q₁ hp₁ hq₁ hpref
      obtain ⟨t', hfold⟩ := ih (done ++ [q]) t₁ hinv' hcond'
      exact ⟨t', by simp [merge_fold, hstep, hfold]⟩

/-- C2 amended, inside the claim's own scope (no key_patterns supplied):
`shape` returns a complete tree on every input whose collapsed path list is
conflict-free (no path's non-terminal part is a proper ancestor of a longer
path); the counterexample — which also uses no key patterns — shows totality
fails without that condition.  The statement is not made about non-empty
key patterns, where sorting can additionally raise in the source (see
`seg_lt`). -/
theorem c2_conflict_free_total :
    ∀ (v : Value) (db so : Bool),
      no_conflict (paths_before_merge [] db so v) = true →
      ∃ t, shape v [] db so = Except.ok t := by
  intro v db so h
  simp only [no_conflict, List.all_eq_true] at h
  have hcond : ∀ p q : SPath,
      p ∈ [] ++ paths_before_merge [] db so v →
      q ∈ [] ++ paths_before_merge [] db so v →
      p.dropLast.isPrefixOf q = true → q.length ≤ p.length := by
    intro p q hp hq hpref
    rw [List.nil_append] at hp hq
    have := h p hp q hq
    rcases Bool.or_eq_true_iff.mp this with hno | hle
    · rw [Bool.not_eq_eq_eq_not, Bool.not_true] at hno
      rw [hpref] at hno
      exact absurd hno (by simp)
    · exact of_decide_eq_true hle
  obtain ⟨t₀, hfold⟩ := merge_fold_ok_of_no_conflict
    (paths_before_merge [] db so v) [] (MTree.dict [])
    (fun pos hpos => absurd (is_leaf_at_empty pos ▸ hpos) (by simp))
    hcond
  exact ⟨convert_lists t₀, by simp [shape, merge_paths, hfold, Except.map]⟩

/-- Witness for C2's amended totality theorem on `{"a": 1}`, whose single
collapsed path is trivially conflict-free. -/
theorem c2_conflict_free_total_witness :
    no_conflict (paths_before_merge [] false false (Value.vdict [("a", Value.vint 1)])) = true
    ∧ ∃ t, shape (Value.vdict [("a", Value.vint 1)]) [] false false = Except.ok t :=
  ⟨rfl, c2_conflict_free_total (Value.vdict [("a", Value.vint 1)]) false false rfl⟩

/-! C8 infrastructure: `path_le` is a linear order, so sorting is a
function of the multiset of paths. -/

theorem seg_lt_irrefl (a : Seg) : seg_lt a a = false := by
  cases a <;> simp [seg_lt]

theorem seg_lt_asymm (a b : Seg) : seg_lt a b = true → seg_lt b a = false := by
  cases a with
  | idx i =>
    cases b with
    | idx j =>
      simp only [seg_lt, decide_eq_true_eq, decide_eq_false_iff_not]
      omega
    | str t => intro _; rfl
  | str s =>
    cases b with
    | idx j => intro h; exact absurd h (by simp [seg_lt])
    | str t =>
      simp only [seg_lt, decide_eq_true_eq, decide_eq_false_iff_not]
      intro h
      exact lt_asymm h

theorem seg_lt_trans (a b c : Seg) :
    seg_lt a b = true → seg_lt b c = true → seg_lt a c = true := by
  cases a with
  | idx i =>
    cases b with
    | idx j =>
      cases c with
      | idx m =>
        simp only [seg_lt, decide_eq_true_eq]
        omega
      | str t => intro _ _; rfl
    | str t =>
      cases c with
      | idx m => intro _ h; exact absurd h (by simp [seg_lt])
      | str u => intro _ _; rfl
  | str s =>
    cases b with
    | idx j => intro h; exact absurd h (by simp [seg_lt])
    | str t =>
      cases c with
      | idx m => intro _ h; exact absurd h (by simp [seg_lt])
      | str u =>
        simp only [seg_lt, decide_eq_true_eq]
        intro h₁ h₂
        exact lt_trans h₁ h₂

theorem seg_lt_conn (a b : Seg) :
    seg_lt a b = false → seg_lt b a = false → a = b := by
  cases a with
  | idx i =>
    cases b with
    | idx j =>
      simp only [seg_lt, decide_eq_false_iff_not]
      intro h₁ h₂
      exact congrArg Seg.idx (by omega)
    | str t => intro h; exact absurd h (by simp [seg_lt])
  | str s =>
    cases b with
    | idx j => intro _ h; exact absurd h (by simp [seg_lt])
    | str t =>
      simp only [seg_lt, decide_eq_false_iff_not]
      intro h₁ h₂
      exact congrArg Seg.str (le_antisymm (not_lt.mp h₂) (not_lt.mp h₁))

theorem path_le_refl (p : SPath) : path_le p p = true := by
  induction p with
  | nil => rfl
  | cons a as ih => simp [path_le, ih]

theorem path_le_total : ∀ p q : SPath, path_le p q = true ∨ path_le q p = true := by
  intro p
  induction p with
  | nil => intro q; exact Or.inl rfl
  | cons a as ih =>
    intro q
    cases q with
    | nil => exact Or.inr rfl
    | cons b bs =>
      cases hab : seg_lt a b with
      | true => exact Or.inl (by simp [path_le, hab])
      | false =>
        cases hba : seg_lt b a with
        | true => exact Or.inr (by simp [path_le, hba])
        | false =>
          have heq : a = b := seg_lt_conn a b hab hba
          subst heq
          rcases ih bs with h | h
          · exact Or.inl (by simp [path_le, h])
          · exact Or.inr (by simp [path_le, h])

theorem path_le_antisymm : ∀ p q : SPath,
    path_le p q = true → path_le q p = true → p = q := by
  intro p
  induction p with
  | nil =>
    intro q _ hqp
    cases q with
    | nil => rfl
    | cons b bs => simp [path_le] at hqp
  | cons a as ih =>
    intro q hpq hqp
    cases q with
    | nil => simp [path_le] at hpq
    | cons b bs =>
      simp only [path_le, Bool.or_eq_true, Bool.and_eq_true, beq_iff_eq] at hpq hqp
      rcases hpq with hab | ⟨heq, has⟩
      · rcases hqp with hba | ⟨heq2, hbs⟩
        · rw [seg_lt_asymm a b hab] at hba
          exact absurd hba (by simp)
        · rw [heq2] at hab
          rw [seg_lt_irrefl a] at hab
          exact absurd hab (by simp)
      · rcases hqp with hba | ⟨_, hbs⟩
        · rw [heq] at hba
          rw [seg_lt_irrefl b] at hba
          exact absurd hba (by simp)
        · rw [heq, ih bs has hbs]

theorem path_le_trans : ∀ p q r : SPath,
    path_le p q = true → path_le q r = true → path_le p r = true := by
  intro p
  induction p with
  | nil => intro q r _ _; rfl
  | cons a as ih =>
    intro q r hpq hqr
    cases q with
    | nil => simp [path_le] at hpq
    | cons b bs =>
      cases r with
      | nil => simp [path_le] at hqr
      | cons c cs =>
        simp only [path_le, Bool.or_eq_true, Bool.and_eq_true, beq_iff_eq] at hpq hqr ⊢
        rcases hpq with hab | ⟨rfl, has⟩
        · rcases hqr with hbc | ⟨rfl, hbs⟩
          · exact Or.inl (seg_lt_trans a b c hab hbc)
          · exact Or.inl hab
        · rcases hqr with hbc | ⟨rfl, hbs⟩
          · exact Or.inl hbc
          · exact Or.inr ⟨rfl, ih bs cs has hbs⟩

theorem mergeSort_eq_of_perm (ps₁ ps₂ : List SPath) (h : ps₁.Perm ps₂) :
    ps₁.mergeSort path_le = ps₂.mergeSort path_le := by
  apply List.Perm.eq_of_sorted
    (fun a b _ _ hab hba => path_le_antisymm a b hab hba)
    (List.sorted_mergeSort (fun a b c => path_le_trans a b c)
      (fun a b => by rcases path_le_total a b with h' | h' <;> simp [h']) ps₁)
    (List.sorted_mergeSort (fun a b c => path_le_trans a b c)
      (fun a b => by rcases path_le_total a b with h' | h' <;> simp [h']) ps₂)
    (((List.mergeSort_perm ps₁ path_le).trans h).trans (List.mergeSort_perm ps₂ path_le).symm)

theorem get_paths_map_perm (db : Bool) :
    ∀ {kvs₁ kvs₂ : List (String × Value)}, kvs₁.Perm kvs₂ →
      (get_paths_map db kvs₁).Perm (get_paths_map db kvs₂) := by
  intro kvs₁ kvs₂ h
  induction h with
  | nil => exact List.Perm.refl _
  | cons x h ih =>
    obtain ⟨k, v⟩ := x
    simpa only [get_paths_map] using ih.append_left _
  | swap x y l =>
    obtain ⟨kx, vx⟩ := x
    obtain ⟨ky, vy⟩ := y
    simp only [get_paths_map, ← List.append_assoc]
    exact List.Perm.append_right _ List.perm_append_comm
  | trans h₁ h₂ ih₁ ih₂ => exact ih₁.trans ih₂

/-- C8: with `sort = true`, two mappings whose entry lists are permutations
of one another (same entries, different insertion order) produce the same
sorted path list, the same collapsed path list handed to the merger, and
hence the same shape. -/
theorem c8_sort_determinism :
    ∀ (kvs₁ kvs₂ : List (String × Value)) (kp : List (String × String)) (db : Bool),
      kvs₁.Perm kvs₂ →
      sort_stage true (describe_numbers_stage db
          (apply_patterns_stage kp (get_paths db (Value.vdict kvs₁))))
        = sort_stage true (describe_numbers_stage db
            (apply_patterns_stage kp (get_paths db (Value.vdict kvs₂))))
      ∧ paths_before_merge kp db true (Value.vdict kvs₁)
          = paths_before_merge kp db true (Value.vdict kvs₂)
      ∧ shape (Value.vdict kvs₁) kp db true = shape (Value.vdict kvs₂) kp db true := by
  intro kvs₁ kvs₂ kp db h
  have hperm : (get_paths db (Value.vdict kvs₁)).Perm (get_paths db (Value.vdict kvs₂)) :=
    get_paths_map_perm db h
  have happly := hperm.map (fun p => p.map (apply_patterns kp))
  have hsort : sort_stage true (describe_numbers_stage db
      (apply_patterns_stage kp (get_paths db (Value.vdict kvs₁))))
      = sort_stage true (describe_numbers_stage db
          (apply_patterns_stage kp (get_paths db (Value.vdict kvs₂)))) := by
    simp only [sort_stage, if_pos rfl, describe_numbers_stage, apply_patterns_stage]
    exact mergeSort_eq_of_perm _ _ happly
  refine ⟨hsort, ?_, ?_⟩
  · simp only [paths_before_merge, hsort]
  · simp only [shape, paths_before_merge, hsort]

/-- Witness for C8 on the two insertion orders of `{"a": "x", "b": 1}`. -/
theorem c8_sort_determinism_witness :
    shape (Value.vdict [("b", Value.vint 1), ("a", Value.vstr "x")]) [] false true
      = shape (Value.vdict [("a", Value.vstr "x"), ("b", Value.vint 1)]) [] false true :=
  (c8_sort_determinism [("b", Value.vint 1), ("a", Value.vstr "x")]
    [("a", Value.vstr "x"), ("b", Value.vint 1)] [] false
    (List.Perm.swap ("a", Value.vstr "x") ("b", Value.vint 1) [])).2.2
